import Mathlib

/-!
Verification of the Phyton token-correction engine.

The program rewrites misspelled Python keywords into their canonical
spellings using whole-word regular-expression substitution driven by a
table mapping each canonical keyword to its registered alternate
spellings (`PhytonInterpreter` in `phyton.py`).  Text is modelled as
`List Char`; the `\b`-bounded substitution of Python's
`re.sub(r'\b' + re.escape(m) + r'\b', c, text)` is modelled by a
left-to-right scanner that replaces an occurrence of `m` exactly when
it is preceded by a non-word character (or the start of the text) and
followed by a non-word character (or the end), continuing the scan
after the end of the match, as `re.sub` does.
-/

/-- Word characters of the regex `\w` class, for the ASCII texts the
program handles: letters, digits and underscore. -/
def isWordChar (c : Char) : Bool := c.isAlpha || c.isDigit || c == '_'

/-- A `\b` word-boundary holds after a match iff the remaining text is
empty or starts with a non-word character (the patterns substituted by
the program consist of word characters only). -/
def endBoundary : List Char → Bool
  | [] => true
  | c :: _ => !isWordChar c

/-- One left-to-right `re.sub` pass for the pattern `\b m \b` with
replacement `c`, with explicit fuel so that the recursion is
structural: `prevW` records whether the character just before the
current position is a word character. -/
def subWordFuel (m c : List Char) : Nat → Bool → List Char → List Char
  | _, _, [] => []
  | 0, _, _ :: _ => []
  | fuel + 1, prevW, t :: ts =>
    if m ≠ [] ∧ prevW = false ∧ m.isPrefixOf (t :: ts) = true ∧
        endBoundary (List.drop m.length (t :: ts)) = true then
      c ++ subWordFuel m c fuel (isWordChar (m.getLastD 'a')) (List.drop m.length (t :: ts))
    else
      t :: subWordFuel m c fuel (isWordChar t) ts

/-- Run the substitution scanner from a given boundary state. -/
def subWordRun (m c : List Char) (prevW : Bool) (l : List Char) : List Char :=
  subWordFuel m c l.length prevW l

/-- `re.sub(r'\b m \b', c, l)`: at the start of the text there is no
preceding word character. -/
def subWord (m c l : List Char) : List Char := subWordRun m c false l

/-- The built-in seed table of `PhytonInterpreter.__init__`: each
canonical keyword mapped to its list of spellings, in source order. -/
def keyword_mappings : List (String × List String) := [
  ("def", ["def", "deff", "define", "defin"]),
  ("if", ["if", "iff", "iif"]),
  ("elif", ["elif", "elsif", "elseif", "else_if"]),
  ("else", ["else", "els", "elze"]),
  ("for", ["for", "fore", "four", "fr"]),
  ("while", ["while", "wile", "whyle", "whil"]),
  ("in", ["in", "inn", "iin"]),
  ("return", ["return", "retrun", "retrn", "ret"]),
  ("import", ["import", "imprt", "imort", "importt"]),
  ("from", ["from", "frm", "fom"]),
  ("as", ["as", "az", "ass"]),
  ("class", ["class", "clas", "clss", "klass"]),
  ("try", ["try", "tri", "tyr"]),
  ("except", ["except", "exept", "excpt", "catch"]),
  ("finally", ["finally", "finaly", "finale"]),
  ("with", ["with", "wth", "wit"]),
  ("and", ["and", "andd", "adn"]),
  ("or", ["or", "orr"]),
  ("not", ["not", "nott", "no"]),
  ("is", ["is", "iz", "iss"]),
  ("True", ["True", "true", "TRUE", "tru"]),
  ("False", ["False", "false", "FALSE", "fals"]),
  ("None", ["None", "none", "NONE", "null", "nil"]),
  ("print", ["print", "prin", "prnt", "pritn"])]

/-- `fix_spelling` over character lists: for every table entry in
order, for every listed spelling other than the canonical keyword,
apply one whole-word substitution pass to the accumulated text. -/
def fixSpellingL (table : List (String × List String)) (l : List Char) : List Char :=
  table.foldl
    (fun acc p =>
      p.2.foldl (fun acc2 ms => if ms == p.1 then acc2 else subWord ms.toList p.1.toList acc2) acc)
    l

/-- `PhytonInterpreter.fix_spelling`. -/
def fix_spelling (table : List (String × List String)) (code : String) : String :=
  ⟨fixSpellingL table code.toList⟩

/-- Association-list model of the interpreter's `keyword_mappings`
dict: Python dicts preserve insertion order, and assignment to an
existing key keeps its position. -/
abbrev Table := List (String × List String)

/-- The in-place update applied by `add_misspelling` to the entry of
the canonical keyword `c`: append `m` unless it is already listed. -/
def updEntry (c m : String) (p : String × List String) : String × List String :=
  if p.1 == c then (p.1, if m ∈ p.2 then p.2 else p.2 ++ [m]) else p

/-- `PhytonInterpreter.add_misspelling`: if the canonical keyword is a
known key, append the new spelling unless present and return `True`;
otherwise leave the table unchanged and return `False`. -/
def add_misspelling (t : Table) (c m : String) : Table × Bool :=
  if (t.lookup c).isSome = true then (t.map (updEntry c m), true) else (t, false)

/-- Python dict assignment `d[k] = v`: overwrite in place when the key
exists, otherwise append the new binding at the end. -/
def dictSet (t : Table) (k : String) (v : List String) : Table :=
  if (t.lookup k).isSome = true then
    t.map (fun p => if p.1 == k then (k, v) else p)
  else t ++ [(k, v)]

/-- `PhytonInterpreter.add_keyword`: when no misspelling list is given
the entry becomes `[c]`; when the given list lacks the canonical
spelling it is inserted at the front; the entry is then assigned. -/
def add_keyword (t : Table) (c : String) (misspellings : Option (List String)) : Table :=
  let ms := match misspellings with
    | none => [c]
    | some l => if c ∈ l then l else c :: l
  dictSet t c ms

/-- `PhytonInterpreter.get_misspellings`: `dict.get` with default `[]`. -/
def get_misspellings (t : Table) (c : String) : List String :=
  ((t.lookup c).getD [])

/-- One mutation of the table, for stating reachability invariants. -/
inductive TableOp where
  | addMiss : String → String → TableOp
  | addKw : String → Option (List String) → TableOp

/-- Apply one mutation. -/
def applyOp (t : Table) : TableOp → Table
  | .addMiss c m => (add_misspelling t c m).1
  | .addKw c ms => add_keyword t c ms

/-- Apply a sequence of mutations in order. -/
def applyOps (t : Table) (ops : List TableOp) : Table := ops.foldl applyOp t

/-- The invariant claimed for one entry: it lists at least the
canonical spelling, and lists no alternate twice. -/
def entryInv (p : String × List String) : Prop := p.1 ∈ p.2 ∧ p.2.Nodup

/-- The invariant claimed for the whole table. -/
def tableInv (t : Table) : Prop := ∀ p ∈ t, entryInv p

instance entryInv_dec : DecidablePred entryInv := fun p =>
  inferInstanceAs (Decidable (p.1 ∈ p.2 ∧ p.2.Nodup))

instance tableInv_dec (t : Table) : Decidable (tableInv t) :=
  inferInstanceAs (Decidable (∀ p ∈ t, entryInv p))

/-- A mutation with a duplicate-free misspelling list (the hypothesis
under which the no-duplicates invariant is actually preserved). -/
def opOK : TableOp → Prop
  | .addKw _ (some ms) => ms.Nodup
  | _ => True

instance opOK_dec : DecidablePred opOK
  | TableOp.addMiss _ _ => Decidable.isTrue trivial
  | TableOp.addKw _ none => Decidable.isTrue trivial
  | TableOp.addKw _ (some ms) => List.nodupDecidable ms

/-!
Word-structure view of text: a text decomposes into maximal runs of
word characters (the standalone whole words that `\b`-bounded patterns
can match) and individual non-word characters.  The substitution
passes of `fix_spelling` act on this decomposition word by word, which
is how the word-boundary properties below are proved.
-/

/-- A segment of text: a maximal word, or one non-word character. -/
inductive Seg where
  | word : List Char → Seg
  | sep : Char → Seg
deriving DecidableEq

/-- Concatenate segments back into text. -/
def flattenSegs : List Seg → List Char
  | [] => []
  | Seg.word w :: rest => w ++ flattenSegs rest
  | Seg.sep c :: rest => c :: flattenSegs rest

/-- Split text into maximal word-character runs and single non-word
characters. -/
def parse : List Char → List Seg
  | [] => []
  | c :: cs =>
    if isWordChar c then
      match parse cs with
      | Seg.word w :: rest => Seg.word (c :: w) :: rest
      | rest => Seg.word [c] :: rest
    else Seg.sep c :: parse cs

/-- Apply a function to every word segment, leaving separators. -/
def mapWords (f : List Char → List Char) : List Seg → List Seg
  | [] => []
  | Seg.word w :: rest => Seg.word (f w) :: mapWords f rest
  | Seg.sep c :: rest => Seg.sep c :: mapWords f rest

/-- A word that a `\b`-bounded whole-word pattern can name: nonempty
and made of word characters only. -/
def goodWord (w : List Char) : Prop := w ≠ [] ∧ w.all isWordChar = true

instance goodWord_dec : DecidablePred goodWord := fun w =>
  inferInstanceAs (Decidable (w ≠ [] ∧ w.all isWordChar = true))

/-- A substitution pair whose pattern and replacement are both
standalone words (true of every pair of the seed table). -/
def goodPair (p : List Char × List Char) : Prop := goodWord p.1 ∧ goodWord p.2

instance goodPair_dec : DecidablePred goodPair := fun p =>
  inferInstanceAs (Decidable (goodWord p.1 ∧ goodWord p.2))

/-- Well-formed segment lists: words are good, separators are
non-word characters, and no two words are adjacent (words are
maximal). -/
inductive SegsWF : List Seg → Prop
  | nil : SegsWF []
  | sep {c : Char} {rest : List Seg} : isWordChar c = false → SegsWF rest →
      SegsWF (Seg.sep c :: rest)
  | word {w : List Char} {rest : List Seg} : goodWord w →
      (rest = [] ∨ ∃ c r, rest = Seg.sep c :: r) → SegsWF rest →
      SegsWF (Seg.word w :: rest)

/-- The (pattern, replacement) pairs of one table entry, in order:
every listed spelling other than the canonical keyword, paired with
the canonical keyword. -/
def entryPairs (p : String × List String) : List (List Char × List Char) :=
  p.2.filterMap (fun ms => if ms == p.1 then none else some (ms.toList, p.1.toList))

/-- All substitution pairs of a table, in the order the source
applies them. -/
def tablePairs (table : List (String × List String)) : List (List Char × List Char) :=
  (table.map entryPairs).flatten

/-- Sequential, cumulative application of substitution passes. -/
def applySubs (ps : List (List Char × List Char)) (l : List Char) : List Char :=
  ps.foldl (fun acc p => subWord p.1 p.2 acc) l

/-- The effect of the substitution passes on one standalone word. -/
def applyRepl (ps : List (List Char × List Char)) (w : List Char) : List Char :=
  ps.foldl (fun v p => if v = p.1 then p.2 else v) w

/-- What `fix_spelling` does to each standalone whole word of the
text. -/
def wordFix (table : List (String × List String)) (w : List Char) : List Char :=
  applyRepl (tablePairs table) w

/-- No standalone whole word of the text is a registered non-canonical
alternate of the table. -/
def hasNoAlternates (table : List (String × List String)) (l : List Char) : Bool :=
  (parse l).all fun s =>
    match s with
    | Seg.word w => !(tablePairs table).any (fun p => p.1 == w)
    | Seg.sep _ => true

/-!
Fuzzy matching and option correction.  The repository's tests exercise
`PhytonInterpreter(fuzzy_matching=...)`, `find_fuzzy_match` and a
`PhytonArgumentParser`, but the copy of `phyton.py` in the sources
predates those features, so they are modelled here from the
specification (similarity scoring with a length-adaptive threshold,
and long-option correction over a fixed vocabulary).
-/

/-- One row update of the Wagner-Fischer edit-distance table:
`pdiag :: prest` is the previous row and `left` the entry just
computed in the current row. -/
def levRowAux (x : Char) : List Char → List Nat → Nat → List Nat
  | [], _, _ => []
  | _ :: _, [], _ => []
  | y :: ys, pdiag :: prest, left =>
    let above := prest.headD 0
    let cur := if x == y then pdiag else 1 + min pdiag (min above left)
    cur :: levRowAux x ys prest cur

/-- One full row of the edit-distance table for the next character of
the candidate word. -/
def levRow (x : Char) (b : List Char) (prev : List Nat) : List Nat :=
  match prev with
  | [] => []
  | p0 :: _ => (p0 + 1) :: levRowAux x b prev (p0 + 1)

/-- Modelled from the spec: character-level Levenshtein edit distance,
the "edit-distance-based ratio" metric of the FuzzyMatcher (§4.3). -/
def levDist (a b : List Char) : Nat :=
  (a.foldl (fun row x => levRow x b row) (List.range (b.length + 1))).getLastD 0

/-- Modelled from the spec: the length-adaptive acceptance threshold,
in tenths — canonical tokens of length at most 3 need similarity 0.9,
lengths 4 to 6 need 0.8, longer ones need 0.7. -/
def simThreshold (canonLen : Nat) : Nat :=
  if canonLen ≤ 3 then 9 else if canonLen ≤ 6 then 8 else 7

/-- Modelled from the spec: whether a candidate word clears the
canonical token's own threshold, with similarity
`1 - distance / max(len_candidate, len_canonical)` compared by cross
multiplication. -/
def meetsThreshold (cand canon : List Char) : Bool :=
  let d := levDist cand canon
  let mx := max cand.length canon.length
  decide (simThreshold canon.length * mx ≤ 10 * (mx - d))

/-- Absolute difference of lengths, for the spec's tie-break. -/
def absDiff (a b : Nat) : Nat := max a b - min a b

/-- Modelled from the spec: `b` scores strictly better than `a` for
the candidate — higher similarity, or equal similarity and a smaller
candidate-canonical length difference (remaining ties keep table
order). -/
def scoresBetter (cand : List Char) (a b : String) : Bool :=
  let da := levDist cand a.toList
  let ma := max cand.length a.length
  let db := levDist cand b.toList
  let mb := max cand.length b.length
  if (mb - db) * ma > (ma - da) * mb then true
  else if (mb - db) * ma = (ma - da) * mb then
    absDiff cand.length b.length < absDiff cand.length a.length
  else false

/-- Length of the longest canonical token of a table. -/
def maxKeyLen (table : List (String × List String)) : Nat :=
  table.foldl (fun a p => max a p.1.length) 0

/-- Modelled from the spec: `find_fuzzy_match(word)` (§4.3).  Disabled
mode always returns none; candidates of length at most 1, or longer
than double the longest canonical token, never match; otherwise the
best canonical token clearing its own length-adaptive threshold is
chosen. -/
def find_fuzzy_match (fuzzy_matching : Bool) (table : List (String × List String))
    (word : String) : Option String :=
  if fuzzy_matching = false then none
  else if word.length ≤ 1 then none
  else if 2 * maxKeyLen table < word.length then none
  else
    table.foldl
      (fun best p =>
        if meetsThreshold word.toList p.1.toList then
          match best with
          | none => some p.1
          | some a => if scoresBetter word.toList a p.1 then some p.1 else some a
        else best)
      none

/-- Modelled from the spec: the CLI option vocabulary — canonical long
options `help`, `fuzzy` and `interactive` with their registered
alternates (the alternates are the ones the repository's tests
exercise). -/
def option_mappings : List (String × List String) := [
  ("help", ["help", "halp", "helap", "hepl"]),
  ("fuzzy", ["fuzzy", "fuzy", "fuzz", "fuzi", "fzzy"]),
  ("interactive", ["interactive", "interactiv", "intractiv", "interact"])]

/-- Modelled from the spec: `_find_option_match` — exact table lookup
first, then fuzzy matching against the canonical option names with the
same adaptive thresholds. -/
def find_option_match (name : String) : Option String :=
  match option_mappings.find? (fun p => p.2.contains name) with
  | some p => some p.1
  | none => find_fuzzy_match true option_mappings name

/-- Modelled from the spec: correction of one argument — only tokens
shaped like a long option (a `--` marker followed by the option name)
are candidates; everything else passes through unchanged, as does a
long option with no exact or fuzzy match. -/
def correctArg (arg : String) : String :=
  match arg.data with
  | '-' :: '-' :: nameL =>
    match find_option_match ⟨nameL⟩ with
    | some c => ⟨'-' :: '-' :: c.data⟩
    | none => arg
  | _ => arg

/-- Modelled from the spec: one step of option correction — append the
corrected argument, and record the (original, corrected) pair when the
correction changed it. -/
def optStep (acc : List String × List (String × String)) (arg : String) :
    List String × List (String × String) :=
  let fixedA := correctArg arg
  if fixedA = arg then (acc.1 ++ [arg], acc.2)
  else (acc.1 ++ [fixedA], acc.2 ++ [(arg, fixedA)])

/-- Modelled from the spec: `correct_options(args)` — the corrected
argument sequence in order, together with the ordered
(original, corrected) pairs of the substitutions that changed an
argument. -/
def correct_options (args : List String) : List String × List (String × String) :=
  args.foldl optStep ([], [])

/-- A single-quote character (test texts contain quotes; building them
from code points keeps the sources free of escape sequences). -/
def squote : String := String.mk [Char.ofNat 39]

/-- A double-quote character. -/
def dquote : String := String.mk [Char.ofNat 34]

/-- The already-canonical sample text of the spec, `print(-x-)` with
single quotes around the `x`. -/
def printxText : String := "print(" ++ squote ++ "x" ++ squote ++ ")"

/-- Sample text with a registered alternate inside double quotes. -/
def quotedDeffText : String :=
  "print(" ++ dquote ++ "deff is not a function" ++ dquote ++ ")"

/-- The quoted sample text after correction. -/
def quotedDefText : String :=
  "print(" ++ dquote ++ "def is not a function" ++ dquote ++ ")"

/-!
Step lemmas for the substitution scanner.
-/

theorem subWordFuel_nil (m c : List Char) (f : Nat) (b : Bool) :
    subWordFuel m c f b [] = [] := by
  cases f <;> rfl

theorem subWordFuel_succ (m c : List Char) (f : Nat) (b : Bool) (t : Char) (ts : List Char) :
    subWordFuel m c (f + 1) b (t :: ts) =
      if m ≠ [] ∧ b = false ∧ m.isPrefixOf (t :: ts) = true ∧
          endBoundary (List.drop m.length (t :: ts)) = true then
        c ++ subWordFuel m c f (isWordChar (m.getLastD 'a')) (List.drop m.length (t :: ts))
      else
        t :: subWordFuel m c f (isWordChar t) ts := rfl

theorem subWordFuel_congr (m c : List Char) :
    ∀ (f₁ : Nat) (l : List Char) (f₂ : Nat) (b : Bool), l.length ≤ f₁ → l.length ≤ f₂ →
      subWordFuel m c f₁ b l = subWordFuel m c f₂ b l := by
  intro f₁
  induction f₁ with
  | zero =>
    intro l f₂ b h1 _
    have : l = [] := List.length_eq_zero.mp (Nat.le_zero.mp h1)
    subst this
    rw [subWordFuel_nil, subWordFuel_nil]
  | succ n ih =>
    intro l f₂ b h1 h2
    cases l with
    | nil => rw [subWordFuel_nil, subWordFuel_nil]
    | cons t ts =>
      cases f₂ with
      | zero => simp at h2
      | succ k =>
        rw [subWordFuel_succ, subWordFuel_succ]
        by_cases h : m ≠ [] ∧ b = false ∧ m.isPrefixOf (t :: ts) = true ∧
            endBoundary (List.drop m.length (t :: ts)) = true
        · rw [if_pos h, if_pos h]
          congr 1
          have hmlen : 1 ≤ m.length := by
            have := h.1
            cases m with
            | nil => simp at this
            | cons a as => simp
          apply ih
          · simp only [List.length_drop, List.length_cons]
            simp only [List.length_cons] at h1
            omega
          · simp only [List.length_drop, List.length_cons]
            simp only [List.length_cons] at h2
            omega
        · rw [if_neg h, if_neg h]
          congr 1
          apply ih
          · simp only [List.length_cons] at h1
            omega
          · simp only [List.length_cons] at h2
            omega

theorem getLastD_wordChar :
    ∀ (m : List Char) (d : Char), m ≠ [] → m.all isWordChar = true →
      isWordChar (m.getLastD d) = true := by
  intro m
  induction m with
  | nil => intro d h _; exact absurd rfl h
  | cons x xs ih =>
    intro d _ hall
    rw [List.getLastD_cons]
    cases xs with
    | nil => simp_all [List.all_cons]
    | cons y ys =>
      apply ih
      · simp
      · simp only [List.all_cons, Bool.and_eq_true] at hall
        simp [List.all_cons, hall.2.1, hall.2.2]

theorem no_match_word (m w fr : List Char) (hm : goodWord m) (hw : goodWord w)
    (hne : w ≠ m) (hfr : endBoundary fr = true) :
    ¬(m.isPrefixOf (w ++ fr) = true ∧
      endBoundary (List.drop m.length (w ++ fr)) = true) := by
  rintro ⟨hpre, hend⟩
  have hpre' : m <+: w ++ fr := List.isPrefixOf_iff_prefix.mp hpre
  rcases Nat.lt_trichotomy m.length w.length with hlt | heq | hgt
  · -- a proper prefix of the word: the next character is a word character
    have hdrop : List.drop m.length (w ++ fr) = List.drop m.length w ++ fr := by
      rw [List.drop_append_eq_append_drop, Nat.sub_eq_zero_of_le (Nat.le_of_lt hlt),
        List.drop_zero]
    rw [hdrop] at hend
    have hlen : (List.drop m.length w).length = w.length - m.length := List.length_drop _ _
    have hne' : List.drop m.length w ≠ [] := by
      intro hnil
      rw [hnil] at hlen
      simp at hlen
      omega
    rcases hd : List.drop m.length w with _ | ⟨d, ds⟩
    · exact hne' hd
    · have hdm : d ∈ w := by
        have : d ∈ List.drop m.length w := by rw [hd]; exact List.mem_cons_self d ds
        exact List.Sublist.mem this (List.drop_sublist _ _)
      have hword : isWordChar d = true := List.all_eq_true.mp hw.2 d hdm
      rw [hd] at hend
      simp only [List.cons_append, endBoundary] at hend
      rw [hword] at hend
      simp at hend
  · -- equal lengths force the word to equal the pattern
    have hwp : w <+: w ++ fr := List.prefix_append w fr
    have : m <+: w := List.prefix_of_prefix_length_le hpre' hwp (Nat.le_of_eq heq)
    exact hne (List.IsPrefix.eq_of_length this heq).symm
  · -- the pattern would run past the word into a non-word character
    have hwp : w <+: w ++ fr := List.prefix_append w fr
    have hwm : w <+: m := List.prefix_of_prefix_length_le hwp hpre' (Nat.le_of_lt hgt)
    obtain ⟨m2, hm2⟩ := hwm
    have hm2ne : m2 ≠ [] := by
      intro hnil
      rw [hnil, List.append_nil] at hm2
      exact hne hm2
    obtain ⟨t, ht⟩ := hpre'
    rw [← hm2, List.append_assoc] at ht
    have hfr' : m2 ++ t = fr := List.append_cancel_left ht
    rcases m2 with _ | ⟨e, es⟩
    · exact hm2ne rfl
    · have hem : e ∈ m := by
        rw [← hm2]
        exact List.mem_append_right w (List.mem_cons_self e es)
      have hword : isWordChar e = true := List.all_eq_true.mp hm.2 e hem
      rw [← hfr'] at hfr
      simp only [List.cons_append, endBoundary] at hfr
      rw [hword] at hfr
      simp at hfr

theorem subWordRun_sep (m c : List Char) (hm : goodWord m) (ch : Char)
    (hch : isWordChar ch = false) (b : Bool) (t : List Char) :
    subWordRun m c b (ch :: t) = ch :: subWordRun m c false t := by
  show subWordFuel m c (t.length + 1) b (ch :: t) = ch :: subWordFuel m c t.length false t
  rw [subWordFuel_succ]
  have hnp : m.isPrefixOf (ch :: t) = false := by
    rcases hmm : m with _ | ⟨m0, m'⟩
    · exact absurd hmm hm.1
    · have hword : isWordChar m0 = true := by
        have : m0 ∈ m := by rw [hmm]; exact List.mem_cons_self m0 m'
        exact List.all_eq_true.mp hm.2 m0 this
      simp only [List.isPrefixOf]
      have : (m0 == ch) = false := by
        by_contra hbc
        have : m0 = ch := eq_of_beq (Bool.not_eq_false _ ▸ hbc)
        rw [this] at hword
        rw [hword] at hch
        exact Bool.true_eq_false ▸ (hch ▸ rfl)
      rw [this]
      simp
  rw [if_neg]
  · rw [hch]
  · rintro ⟨_, _, hp, _⟩
    rw [hnp] at hp
    simp at hp

theorem subWordRun_chew (m c : List Char) :
    ∀ (xs fr : List Char), xs.all isWordChar = true →
      subWordRun m c true (xs ++ fr) = xs ++ subWordRun m c true fr := by
  intro xs
  induction xs with
  | nil => intro fr _; simp
  | cons x r ih =>
    intro fr hall
    simp only [List.all_cons, Bool.and_eq_true] at hall
    show subWordFuel m c ((r ++ fr).length + 1) true (x :: (r ++ fr)) = _
    rw [subWordFuel_succ]
    rw [if_neg]
    · rw [hall.1]
      rw [show subWordFuel m c (r ++ fr).length true (r ++ fr) =
          subWordRun m c true (r ++ fr) from rfl]
      rw [ih fr hall.2]
      simp
    · rintro ⟨_, hb, _, _⟩
      simp at hb

theorem subWordRun_match (m c fr : List Char) (hm : goodWord m)
    (hfr : endBoundary fr = true) :
    subWordRun m c false (m ++ fr) = c ++ subWordRun m c true fr := by
  rcases hmm : m with _ | ⟨m0, m'⟩
  · exact absurd hmm hm.1
  rw [← hmm]
  have hcons : m ++ fr = m0 :: (m' ++ fr) := by rw [hmm]; simp
  show subWordFuel m c (m ++ fr).length false (m ++ fr) = _
  rw [hcons, show (m0 :: (m' ++ fr)).length = (m' ++ fr).length + 1 from rfl, subWordFuel_succ]
  rw [if_pos]
  · have hdrop : List.drop m.length (m0 :: (m' ++ fr)) = fr := by
      rw [← hcons, List.drop_left]
    rw [hdrop, getLastD_wordChar m 'a' hm.1 hm.2]
    congr 1
    apply subWordFuel_congr
    · have : (m' ++ fr).length = m'.length + fr.length := List.length_append m' fr
      omega
    · exact Nat.le_refl _
  · refine ⟨hm.1, rfl, ?_, ?_⟩
    · rw [← hcons]
      exact List.isPrefixOf_iff_prefix.mpr ⟨fr, rfl⟩
    · rw [← hcons, List.drop_left]
      exact hfr

theorem subWordRun_pass (m c w fr : List Char) (hm : goodWord m) (hw : goodWord w)
    (hne : w ≠ m) (hfr : endBoundary fr = true) :
    subWordRun m c false (w ++ fr) = w ++ subWordRun m c true fr := by
  obtain ⟨x, xs, hww⟩ : ∃ x xs, w = x :: xs := by
    cases w with
    | nil => exact absurd rfl hw.1
    | cons a b => exact ⟨a, b, rfl⟩
  have hall : isWordChar x = true ∧ xs.all isWordChar = true := by
    have := hw.2
    rw [hww] at this
    simpa [List.all_cons] using this
  show subWordFuel m c (w ++ fr).length false (w ++ fr) = _
  rw [hww, List.cons_append, show ((x :: (xs ++ fr))).length = (xs ++ fr).length + 1 from rfl,
    subWordFuel_succ]
  rw [if_neg]
  · rw [hall.1]
    rw [show subWordFuel m c (xs ++ fr).length true (xs ++ fr) =
        subWordRun m c true (xs ++ fr) from rfl]
    rw [subWordRun_chew m c xs fr hall.2]
    simp
  · rintro ⟨_, _, hp, he⟩
    rw [← List.cons_append] at hp he
    rw [← hww] at hp he
    exact no_match_word m w fr hm hw hne hfr ⟨hp, he⟩

/-!
Parsing into maximal words and flattening back.
-/

theorem parse_cons_word (x : Char) (cs : List Char) (hx : isWordChar x = true) :
    parse (x :: cs) =
      match parse cs with
      | Seg.word w :: rest => Seg.word (x :: w) :: rest
      | rest => Seg.word [x] :: rest := by
  simp [parse, hx]

theorem parse_cons_sep (x : Char) (cs : List Char) (hx : isWordChar x = false) :
    parse (x :: cs) = Seg.sep x :: parse cs := by
  simp [parse, hx]

theorem flattenSegs_parse : ∀ l : List Char, flattenSegs (parse l) = l := by
  intro l
  induction l with
  | nil => rfl
  | cons ch cs ih =>
    by_cases hch : isWordChar ch = true
    · rw [parse_cons_word ch cs hch]
      rcases hp : parse cs with _ | ⟨s, rest⟩
      · rw [hp] at ih
        have hcs : cs = [] := by rw [← ih]; rfl
        subst hcs
        rfl
      · cases s with
        | word w =>
          rw [hp] at ih
          show flattenSegs (Seg.word (ch :: w) :: rest) = ch :: cs
          rw [← ih]
          rfl
        | sep c2 =>
          rw [hp] at ih
          show flattenSegs (Seg.word [ch] :: Seg.sep c2 :: rest) = ch :: cs
          rw [← ih]
          rfl
    · have hch' : isWordChar ch = false := Bool.not_eq_true _ ▸ hch
      rw [parse_cons_sep ch cs hch']
      show ch :: flattenSegs (parse cs) = ch :: cs
      rw [ih]

theorem parse_wf : ∀ l : List Char, SegsWF (parse l) := by
  intro l
  induction l with
  | nil => exact SegsWF.nil
  | cons ch cs ih =>
    by_cases hch : isWordChar ch = true
    · rw [parse_cons_word ch cs hch]
      rcases hp : parse cs with _ | ⟨s, rest⟩
      · exact SegsWF.word ⟨by simp, by simp [hch]⟩ (Or.inl rfl) SegsWF.nil
      · rw [hp] at ih
        cases s with
        | word w =>
          cases ih with
          | word hword hshape hrest =>
            exact SegsWF.word ⟨by simp, by simp [List.all_cons, hch, hword.2]⟩ hshape hrest
        | sep c2 =>
          exact SegsWF.word ⟨by simp, by simp [hch]⟩ (Or.inr ⟨c2, rest, rfl⟩) ih
    · have hch' : isWordChar ch = false := Bool.not_eq_true _ ▸ hch
      rw [parse_cons_sep ch cs hch']
      exact SegsWF.sep hch' ih

theorem parse_endBoundary (fr : List Char) (hfr : endBoundary fr = true) :
    parse fr = [] ∨ ∃ ch r, parse fr = Seg.sep ch :: r := by
  cases fr with
  | nil => exact Or.inl rfl
  | cons f0 fr' =>
    have hf0 : isWordChar f0 = false := by
      simp only [endBoundary] at hfr
      cases h : isWordChar f0
      · rfl
      · rw [h] at hfr; simp at hfr
    exact Or.inr ⟨f0, parse fr', parse_cons_sep f0 fr' hf0⟩

theorem parse_word_append :
    ∀ (xs : List Char) (x : Char) (fr : List Char), (x :: xs).all isWordChar = true →
      endBoundary fr = true → parse ((x :: xs) ++ fr) = Seg.word (x :: xs) :: parse fr := by
  intro xs
  induction xs with
  | nil =>
    intro x fr hall hfr
    have hx : isWordChar x = true := by simpa [List.all_cons] using hall
    rw [show ([x] ++ fr) = x :: fr from rfl, parse_cons_word x fr hx]
    rcases parse_endBoundary fr hfr with hp | ⟨ch, r, hp⟩ <;> rw [hp]
  | cons y ys ih =>
    intro x fr hall hfr
    simp only [List.all_cons, Bool.and_eq_true] at hall
    have hx : isWordChar x = true := hall.1
    have htail : (y :: ys).all isWordChar = true := by
      simp [List.all_cons, hall.2.1, hall.2.2]
    have hrec := ih y fr htail hfr
    rw [show ((x :: y :: ys) ++ fr) = x :: ((y :: ys) ++ fr) from rfl,
      parse_cons_word x _ hx, hrec]

theorem flat_endBoundary (segs : List Seg) (hwf : SegsWF segs)
    (hs : segs = [] ∨ ∃ ch r, segs = Seg.sep ch :: r) :
    endBoundary (flattenSegs segs) = true := by
  rcases hs with rfl | ⟨ch, r, rfl⟩
  · rfl
  · cases hwf with
    | sep hch _ =>
      show endBoundary (ch :: flattenSegs r) = true
      simp [endBoundary, hch]

theorem parse_flattenSegs : ∀ (segs : List Seg), SegsWF segs →
    parse (flattenSegs segs) = segs := by
  intro segs hwf
  induction hwf with
  | nil => rfl
  | sep hch hrest ih =>
    rename_i ch rest
    show parse (ch :: flattenSegs rest) = Seg.sep ch :: rest
    rw [parse_cons_sep _ _ hch, ih]
  | word hword hshape hrest ih =>
    rename_i w rest
    obtain ⟨x, xs, hww⟩ : ∃ x xs, w = x :: xs := by
      cases w with
      | nil => exact absurd rfl hword.1
      | cons a b => exact ⟨a, b, rfl⟩
    have hfr : endBoundary (flattenSegs rest) = true := flat_endBoundary rest hrest hshape
    show parse (w ++ flattenSegs rest) = Seg.word w :: rest
    rw [hww, parse_word_append xs x (flattenSegs rest) (hww ▸ hword.2) hfr, ih]

theorem mapWords_wf (f : List Char → List Char)
    (hf : ∀ w, goodWord w → goodWord (f w)) :
    ∀ (segs : List Seg), SegsWF segs → SegsWF (mapWords f segs) := by
  intro segs hwf
  induction hwf with
  | nil => exact SegsWF.nil
  | sep hch hrest ih => exact SegsWF.sep hch ih
  | word hword hshape hrest ih =>
    rename_i w rest
    refine SegsWF.word (hf w hword) ?_ ih
    rcases hshape with rfl | ⟨ch, r, rfl⟩
    · exact Or.inl rfl
    · exact Or.inr ⟨ch, mapWords f r, rfl⟩

theorem mapWords_comp (f g : List Char → List Char) :
    ∀ (segs : List Seg), mapWords f (mapWords g segs) = mapWords (fun w => f (g w)) segs := by
  intro segs
  induction segs with
  | nil => rfl
  | cons s rest ih =>
    cases s with
    | word w => simp [mapWords, ih]
    | sep ch => simp [mapWords, ih]

theorem mapWords_congr (f : List Char → List Char) :
    ∀ (segs : List Seg), (∀ w, Seg.word w ∈ segs → f w = w) → mapWords f segs = segs := by
  intro segs
  induction segs with
  | nil => intro _; rfl
  | cons s rest ih =>
    intro h
    cases s with
    | word w =>
      rw [show mapWords f (Seg.word w :: rest) = Seg.word (f w) :: mapWords f rest from rfl,
        h w (List.mem_cons_self _ _), ih fun v hv => h v (List.mem_cons_of_mem _ hv)]
    | sep ch =>
      rw [show mapWords f (Seg.sep ch :: rest) = Seg.sep ch :: mapWords f rest from rfl,
        ih fun v hv => h v (List.mem_cons_of_mem _ hv)]

theorem subWordRun_startOK (m c : List Char) (hm : goodWord m) (segs : List Seg)
    (hwf : SegsWF segs) (hs : segs = [] ∨ ∃ ch r, segs = Seg.sep ch :: r) :
    subWordRun m c true (flattenSegs segs) = subWordRun m c false (flattenSegs segs) := by
  rcases hs with rfl | ⟨ch, r, rfl⟩
  · rfl
  · cases hwf with
    | sep hch _ =>
      show subWordRun m c true (ch :: flattenSegs r) = subWordRun m c false (ch :: flattenSegs r)
      rw [subWordRun_sep m c hm ch hch true, subWordRun_sep m c hm ch hch false]

theorem subWord_segs (m c : List Char) (hm : goodWord m) :
    ∀ (segs : List Seg), SegsWF segs →
      subWord m c (flattenSegs segs) =
        flattenSegs (mapWords (fun w => if w = m then c else w) segs) := by
  intro segs hwf
  show subWordRun m c false (flattenSegs segs) = _
  induction hwf with
  | nil => rfl
  | sep hch hrest ih =>
    rename_i ch rest
    show subWordRun m c false (ch :: flattenSegs rest) =
      flattenSegs (Seg.sep ch :: mapWords (fun w => if w = m then c else w) rest)
    rw [subWordRun_sep m c hm ch hch false]
    show _ = ch :: flattenSegs (mapWords (fun w => if w = m then c else w) rest)
    rw [ih]
  | word hword hshape hrest ih =>
    rename_i w rest
    have hfr : endBoundary (flattenSegs rest) = true := flat_endBoundary rest hrest hshape
    have hback : subWordRun m c true (flattenSegs rest) =
        flattenSegs (mapWords (fun v => if v = m then c else v) rest) := by
      rw [subWordRun_startOK m c hm rest hrest hshape]
      exact ih
    show subWordRun m c false (w ++ flattenSegs rest) =
      flattenSegs (Seg.word (if w = m then c else w) ::
        mapWords (fun v => if v = m then c else v) rest)
    by_cases hwm : w = m
    · rw [hwm, subWordRun_match m c (flattenSegs rest) hm hfr, if_pos rfl]
      show _ = c ++ flattenSegs (mapWords (fun v => if v = m then c else v) rest)
      rw [hback]
    · rw [subWordRun_pass m c w (flattenSegs rest) hm hword hwm hfr, if_neg hwm]
      show _ = w ++ flattenSegs (mapWords (fun v => if v = m then c else v) rest)
      rw [hback]

theorem toList_mk (l : List Char) : (String.mk l).toList = l := rfl

theorem fix_spelling_def (table : Table) (code : String) :
    fix_spelling table code = String.mk (fixSpellingL table code.toList) := rfl

theorem applySubs_words :
    ∀ (ps : List (List Char × List Char)), (∀ p ∈ ps, goodPair p) →
      ∀ l, applySubs ps l = flattenSegs (mapWords (applyRepl ps) (parse l)) := by
  intro ps
  induction ps with
  | nil =>
    intro _ l
    show l = flattenSegs (mapWords (applyRepl []) (parse l))
    rw [mapWords_congr (applyRepl []) (parse l) (fun w _ => rfl), flattenSegs_parse]
  | cons p ps ih =>
    intro hgood l
    have hp : goodPair p := hgood p (List.mem_cons_self _ _)
    have hps : ∀ q ∈ ps, goodPair q := fun q hq => hgood q (List.mem_cons_of_mem _ hq)
    show applySubs ps (subWord p.1 p.2 l) = _
    have h1 : subWord p.1 p.2 l =
        flattenSegs (mapWords (fun w => if w = p.1 then p.2 else w) (parse l)) := by
      conv_lhs => rw [← flattenSegs_parse l]
      exact subWord_segs p.1 p.2 hp.1 (parse l) (parse_wf l)
    have hwfm : SegsWF (mapWords (fun w => if w = p.1 then p.2 else w) (parse l)) := by
      refine mapWords_wf _ ?_ (parse l) (parse_wf l)
      intro w hw
      by_cases h : w = p.1
      · rw [if_pos h]; exact hp.2
      · rw [if_neg h]; exact hw
    rw [h1, ih hps, parse_flattenSegs _ hwfm, mapWords_comp]
    rfl

theorem entry_fold (c1 : String) :
    ∀ (ms : List String) (l : List Char),
      ms.foldl (fun acc2 ms2 => if ms2 == c1 then acc2 else subWord ms2.toList c1.toList acc2) l =
      applySubs (ms.filterMap
        (fun ms2 => if ms2 == c1 then none else some (ms2.toList, c1.toList))) l := by
  intro ms
  induction ms with
  | nil => intro l; rfl
  | cons m0 rest ih =>
    intro l
    by_cases h : (m0 == c1) = true
    · simp only [List.foldl_cons, List.filterMap_cons, h, if_pos]
      exact ih l
    · have h' : (m0 == c1) = false := Bool.not_eq_true _ ▸ h
      simp only [List.foldl_cons, List.filterMap_cons, h']
      simp only [Bool.false_eq_true, if_false]
      exact ih (subWord m0.toList c1.toList l)

theorem fixSpellingL_eq (table : Table) :
    ∀ l, fixSpellingL table l = applySubs (tablePairs table) l := by
  induction table with
  | nil => intro l; rfl
  | cons p T ih =>
    intro l
    show fixSpellingL T
      (p.2.foldl (fun acc2 ms => if ms == p.1 then acc2 else subWord ms.toList p.1.toList acc2) l)
      = applySubs (tablePairs (p :: T)) l
    rw [show tablePairs (p :: T) = entryPairs p ++ tablePairs T from rfl]
    rw [show applySubs (entryPairs p ++ tablePairs T) l =
      applySubs (tablePairs T) (applySubs (entryPairs p) l) from List.foldl_append _ _ _ _]
    rw [ih, entry_fold]
    rfl

theorem applyRepl_not_mem :
    ∀ (ps : List (List Char × List Char)) (w : List Char), (∀ p ∈ ps, p.1 ≠ w) →
      applyRepl ps w = w := by
  intro ps
  induction ps with
  | nil => intro w _; rfl
  | cons p ps ih =>
    intro w h
    show applyRepl ps (if w = p.1 then p.2 else w) = w
    rw [if_neg fun hw => h p (List.mem_cons_self _ _) hw.symm]
    exact ih w fun q hq => h q (List.mem_cons_of_mem _ hq)

theorem applyRepl_result :
    ∀ (ps : List (List Char × List Char)) (w : List Char),
      applyRepl ps w = w ∨ applyRepl ps w ∈ ps.map (fun p => p.2) := by
  intro ps
  induction ps with
  | nil => intro w; exact Or.inl rfl
  | cons p ps ih =>
    intro w
    show applyRepl ps (if w = p.1 then p.2 else w) = w ∨ _
    rcases ih (if w = p.1 then p.2 else w) with h | h
    · by_cases hw : w = p.1
      · rw [if_pos hw] at h
        refine Or.inr ?_
        rw [show applyRepl (p :: ps) w = applyRepl ps (if w = p.1 then p.2 else w) from rfl,
          if_pos hw, h]
        exact List.mem_cons_self _ _
      · rw [if_neg hw] at h
        rw [if_neg hw]
        exact Or.inl h
    · refine Or.inr ?_
      rw [show (p :: ps).map (fun q => q.2) = p.2 :: ps.map (fun q => q.2) from rfl]
      exact List.mem_cons_of_mem _ h

theorem applyRepl_good (ps : List (List Char × List Char)) (hps : ∀ p ∈ ps, goodPair p)
    (w : List Char) (hw : goodWord w) : goodWord (applyRepl ps w) := by
  rcases applyRepl_result ps w with h | h
  · rw [h]; exact hw
  · obtain ⟨p, hp, hpw⟩ := List.mem_map.mp h
    rw [← hpw]
    exact (hps p hp).2

theorem fixSpellingL_words (table : Table) (ht : ∀ p ∈ tablePairs table, goodPair p)
    (l : List Char) :
    fixSpellingL table l = flattenSegs (mapWords (wordFix table) (parse l)) := by
  rw [fixSpellingL_eq, applySubs_words _ ht]
  rfl

/-!
Facts about the seed table, and the claim theorems on `fix_spelling`.
-/

set_option maxRecDepth 40000

set_option maxHeartbeats 4000000

theorem seed_pairs_good : ∀ p ∈ tablePairs keyword_mappings, goodPair p := by decide

theorem seed_canonicals_fixed :
    ∀ r ∈ (tablePairs keyword_mappings).map (fun p => p.2),
      applyRepl (tablePairs keyword_mappings) r = r := by decide

theorem wordFix_seed_idem (w : List Char) :
    wordFix keyword_mappings (wordFix keyword_mappings w) = wordFix keyword_mappings w := by
  rcases applyRepl_result (tablePairs keyword_mappings) w with h | h
  · show applyRepl (tablePairs keyword_mappings) (applyRepl (tablePairs keyword_mappings) w) =
      applyRepl (tablePairs keyword_mappings) w
    rw [h]
    exact h
  · exact seed_canonicals_fixed _ h

theorem fixSpellingL_seed_idem (l : List Char) :
    fixSpellingL keyword_mappings (fixSpellingL keyword_mappings l) =
      fixSpellingL keyword_mappings l := by
  rw [fixSpellingL_words _ seed_pairs_good l,
    fixSpellingL_words _ seed_pairs_good
      (flattenSegs (mapWords (wordFix keyword_mappings) (parse l)))]
  have hwf : SegsWF (mapWords (wordFix keyword_mappings) (parse l)) :=
    mapWords_wf _ (fun w hw => applyRepl_good _ seed_pairs_good w hw) (parse l) (parse_wf l)
  rw [parse_flattenSegs _ hwf, mapWords_comp]
  have hff : (fun w => wordFix keyword_mappings (wordFix keyword_mappings w)) =
      wordFix keyword_mappings := funext wordFix_seed_idem
  rw [hff]

/-- C10: with the built-in seed table, `fix_spelling` is idempotent on
every input string — no canonical keyword of the seed table is a
registered alternate of a different keyword, and every replacement
produces a canonical whole word that no later pattern matches. -/
theorem fix_spelling_idempotent (s : String) :
    fix_spelling keyword_mappings (fix_spelling keyword_mappings s) =
      fix_spelling keyword_mappings s := by
  rw [fix_spelling_def keyword_mappings s,
    fix_spelling_def keyword_mappings (String.mk (fixSpellingL keyword_mappings s.toList)),
    toList_mk, fixSpellingL_seed_idem]

/-- C1: for every canonical keyword of the seed table and every
registered alternate of it, the correction pass rewrites every
standalone whole-word occurrence of the alternate to the canonical
keyword — `fix_spelling` acts on each maximal word of the text through
`wordFix`, which sends the alternate to the canonical spelling — and in
particular correcting the alternate alone returns the canonical
spelling. -/
theorem fix_spelling_corrects_alternates (c : String) (ms : List String) (m : String)
    (hcm : (c, ms) ∈ keyword_mappings) (hm : m ∈ ms) :
    (∀ s : String, fix_spelling keyword_mappings s =
      ⟨flattenSegs (mapWords (wordFix keyword_mappings) (parse s.toList))⟩)
    ∧ wordFix keyword_mappings m.toList = c.toList
    ∧ fix_spelling keyword_mappings m = c := by
  have h2 : wordFix keyword_mappings m.toList = c.toList := by
    have H : ∀ p ∈ keyword_mappings, ∀ m2 ∈ p.2,
        wordFix keyword_mappings m2.toList = p.1.toList := by decide
    exact H (c, ms) hcm m hm
  refine ⟨fun s => congrArg String.mk (fixSpellingL_words _ seed_pairs_good s.toList), h2, ?_⟩
  have hgood : goodWord m.toList := by
    have H : ∀ p ∈ keyword_mappings, ∀ m2 ∈ p.2, goodWord m2.toList := by decide
    exact H (c, ms) hcm m hm
  have hparse : parse m.toList = [Seg.word m.toList] := by
    have hflat : flattenSegs [Seg.word m.toList] = m.toList := by
      show m.toList ++ [] = m.toList
      exact List.append_nil _
    have hpf := parse_flattenSegs [Seg.word m.toList]
      (SegsWF.word hgood (Or.inl rfl) SegsWF.nil)
    rw [hflat] at hpf
    exact hpf
  show String.mk (fixSpellingL keyword_mappings m.toList) = c
  rw [fixSpellingL_words _ seed_pairs_good, hparse]
  show String.mk (wordFix keyword_mappings m.toList ++ []) = c
  rw [h2, List.append_nil]
  rfl

/-- Witness for C1 at the alternate `deff` of `def`. -/
theorem fix_spelling_corrects_alternates_witness :
    (("def", ["def", "deff", "define", "defin"]) ∈ keyword_mappings
      ∧ "deff" ∈ ["def", "deff", "define", "defin"])
    ∧ wordFix keyword_mappings "deff".toList = "def".toList
    ∧ fix_spelling keyword_mappings "deff" = "def" := by
  have h := fix_spelling_corrects_alternates "def" ["def", "deff", "define", "defin"] "deff"
    (by decide) (by decide)
  exact ⟨⟨by decide, by decide⟩, h.2.1, h.2.2⟩

theorem mk_toList (s : String) : String.mk s.toList = s := rfl

/-- C6: correcting text with no standalone whole-word occurrence of
any registered alternate returns it unchanged. -/
theorem fix_spelling_canonical_unchanged (s : String)
    (h : hasNoAlternates keyword_mappings s.toList = true) :
    fix_spelling keyword_mappings s = s := by
  rw [fix_spelling_def]
  have hfix : ∀ w, Seg.word w ∈ parse s.toList → wordFix keyword_mappings w = w := by
    intro w hw
    apply applyRepl_not_mem
    intro p hp heq
    have hx := List.all_eq_true.mp h _ hw
    have hx2 : (!(tablePairs keyword_mappings).any fun q => q.1 == w) = true := hx
    rw [Bool.not_eq_true'] at hx2
    have hnb := List.any_eq_false.mp hx2 p hp
    apply hnb
    rw [heq]
    exact beq_self_eq_true w
  rw [fixSpellingL_words _ seed_pairs_good,
    mapWords_congr (wordFix keyword_mappings) (parse s.toList) hfix, flattenSegs_parse,
    mk_toList]

/-- Witness for C6 at the spec's sample `print(-x-)` (single-quoted
`x`): the text has no whole-word alternate occurrence and is returned
unchanged. -/
theorem fix_spelling_canonical_unchanged_witness :
    hasNoAlternates keyword_mappings printxText.toList = true ∧
    fix_spelling keyword_mappings printxText = printxText :=
  ⟨by decide, fix_spelling_canonical_unchanged printxText (by decide)⟩

/-- C4: the rewriter replaces only whole-word, case-identical
occurrences — `define_function` is untouched although `define` is a
registered alternate of `def`, and uppercase `DEFF` is not rewritten. -/
theorem fix_spelling_word_boundary_case :
    fix_spelling keyword_mappings "define_function = 1" = "define_function = 1" ∧
    fix_spelling keyword_mappings "DEFF hello():" = "DEFF hello():" := by
  constructor
  · decide
  · decide

/-- C5: substitution does not distinguish quoted text — the whole-word
occurrence of `deff` inside the double-quoted string literal is
rewritten to `def` like anywhere else. -/
theorem fix_spelling_rewrites_quoted_text :
    fix_spelling keyword_mappings quotedDeffText = quotedDefText := by decide

/-!
Table-mutation lemmas: `add_misspelling`, `add_keyword` and the
reachability invariant.
-/

theorem lookup_map_value (g : String → List String → List String) :
    ∀ (t : Table) (k : String),
      List.lookup k (t.map (fun p => (p.1, g p.1 p.2))) = (List.lookup k t).map (g k) := by
  intro t
  induction t with
  | nil => intro k; rfl
  | cons p rest ih =>
    intro k
    obtain ⟨p1, p2⟩ := p
    show List.lookup k ((p1, g p1 p2) :: rest.map _) = _
    by_cases hb : (k == p1) = true
    · have hk : k = p1 := eq_of_beq hb
      simp [List.lookup, hb, hk]
    · have hb2 : (k == p1) = false := Bool.not_eq_true _ ▸ hb
      simp [List.lookup, hb2, ih k]

theorem updEntry_keyed (c m : String) :
    updEntry c m = fun p : String × List String =>
      (p.1, (fun k e => if (k == c) = true then (if m ∈ e then e else e ++ [m]) else e) p.1 p.2) := by
  funext p
  by_cases hb : (p.1 == c) = true
  · simp [updEntry, hb]
  · simp [updEntry, hb]

theorem lookup_updEntry (t : Table) (c m : String) :
    List.lookup c (t.map (updEntry c m)) =
      (List.lookup c t).map (fun e => if m ∈ e then e else e ++ [m]) := by
  have h1 := lookup_map_value
    (fun k e => if (k == c) = true then (if m ∈ e then e else e ++ [m]) else e) t c
  rw [updEntry_keyed c m, h1]
  congr 1
  funext e
  rw [if_pos (beq_self_eq_true c)]

theorem updEntry_idem (c m : String) (p : String × List String) :
    updEntry c m (updEntry c m p) = updEntry c m p := by
  by_cases hb : (p.1 == c) = true
  · by_cases hm : m ∈ p.2
    · simp [updEntry, hb, hm]
    · simp [updEntry, hb, hm]
  · simp [updEntry, hb]

/-- C7: `add_misspelling` returns `True` exactly when the canonical
keyword is a known key and a falsy result (with the table untouched)
when it is not; on a known key the alternate is appended only when not
already present, so repeating the same call changes nothing. -/
theorem add_misspelling_contract (t : Table) (c m : String) :
    ((add_misspelling t c m).2 = true ↔ (t.lookup c).isSome = true)
    ∧ ((t.lookup c).isSome = false → add_misspelling t c m = (t, false))
    ∧ (∀ e, t.lookup c = some e →
        (add_misspelling t c m).1.lookup c = some (if m ∈ e then e else e ++ [m]))
    ∧ add_misspelling (add_misspelling t c m).1 c m = add_misspelling t c m := by
  by_cases hl : (t.lookup c).isSome = true
  · have ha : add_misspelling t c m = (t.map (updEntry c m), true) := by
      simp only [add_misspelling, hl, if_true]
    have hlook : (add_misspelling t c m).1.lookup c =
        (t.lookup c).map (fun e => if m ∈ e then e else e ++ [m]) := by
      rw [ha]
      exact lookup_updEntry t c m
    refine ⟨?_, ?_, ?_, ?_⟩
    · rw [ha]
      simp [hl]
    · intro hf
      rw [hl] at hf
      cases hf
    · intro e he
      rw [hlook, he]
      rfl
    · have hl3 : ((t.map (updEntry c m)).lookup c).isSome = true := by
        rw [lookup_updEntry t c m]
        obtain ⟨e, he⟩ := Option.isSome_iff_exists.mp hl
        rw [he]
        rfl
      rw [ha]
      show add_misspelling (t.map (updEntry c m)) c m = (t.map (updEntry c m), true)
      simp only [add_misspelling, hl3, if_true]
      rw [List.map_map,
        List.map_congr_left (fun p _ => show (updEntry c m ∘ updEntry c m) p = updEntry c m p
          from updEntry_idem c m p)]
  · have hl2 : (t.lookup c).isSome = false := Bool.not_eq_true _ ▸ hl
    have ha : add_misspelling t c m = (t, false) := by
      simp only [add_misspelling, hl2]
      rfl
    refine ⟨?_, fun _ => ha, ?_, ?_⟩
    · rw [ha, hl2]
    · intro e he
      rw [he] at hl2
      cases hl2
    · rw [ha]
      exact ha

/-- Witness for C7 at the seed table, `def` and a fresh alternate. -/
theorem add_misspelling_contract_witness :
    (((add_misspelling keyword_mappings "def" "newdef").2 = true ↔
        (keyword_mappings.lookup "def").isSome = true)
      ∧ ((keyword_mappings.lookup "def").isSome = false →
          add_misspelling keyword_mappings "def" "newdef" = (keyword_mappings, false))
      ∧ (∀ e, keyword_mappings.lookup "def" = some e →
          (add_misspelling keyword_mappings "def" "newdef").1.lookup "def" =
            some (if "newdef" ∈ e then e else e ++ ["newdef"]))
      ∧ add_misspelling (add_misspelling keyword_mappings "def" "newdef").1 "def" "newdef" =
          add_misspelling keyword_mappings "def" "newdef") :=
  add_misspelling_contract keyword_mappings "def" "newdef"

theorem lookup_append_self :
    ∀ (t : Table) (k : String) (v : List String), (t.lookup k).isSome = false →
      (t ++ [(k, v)]).lookup k = some v := by
  intro t
  induction t with
  | nil =>
    intro k v _
    simp [List.lookup]
  | cons p rest ih =>
    intro k v h
    obtain ⟨p1, p2⟩ := p
    by_cases hb : (k == p1) = true
    · exfalso
      simp [List.lookup, hb] at h
    · have hb2 : (k == p1) = false := Bool.not_eq_true _ ▸ hb
      simp only [List.lookup, hb2] at h
      show List.lookup k ((p1, p2) :: (rest ++ [(k, v)])) = some v
      simp only [List.lookup, hb2]
      exact ih k v h

theorem dictSet_lookup (t : Table) (k : String) (v : List String) :
    (dictSet t k v).lookup k = some v := by
  by_cases h : (t.lookup k).isSome = true
  · simp only [dictSet, h, if_true]
    have hkey : (fun p : String × List String => if (p.1 == k) = true then (k, v) else p) =
        (fun p : String × List String =>
          (p.1, (fun k2 e => if (k2 == k) = true then v else e) p.1 p.2)) := by
      funext p
      by_cases hb : (p.1 == k) = true
      · simp [hb, eq_of_beq hb]
      · simp [hb]
    rw [hkey, lookup_map_value (fun k2 e => if (k2 == k) = true then v else e) t k]
    obtain ⟨e, he⟩ := Option.isSome_iff_exists.mp h
    rw [he]
    show some (if (k == k) = true then v else e) = some v
    rw [if_pos (beq_self_eq_true k)]
  · have h2 : (t.lookup k).isSome = false := Bool.not_eq_true _ ▸ h
    simp only [dictSet, h2]
    show (t ++ [(k, v)]).lookup k = some v
    exact lookup_append_self t k v h2

/-- C8: `add_keyword` with no alternates list creates the entry
holding exactly the canonical spelling; with an alternates list it
overwrites any existing entry, inserting the canonical spelling as the
first element when the list lacks it. -/
theorem add_keyword_contract (t : Table) (c : String) (ms : List String) :
    (add_keyword t c none).lookup c = some [c]
    ∧ (c ∉ ms → (add_keyword t c (some ms)).lookup c = some (c :: ms))
    ∧ (c ∈ ms → (add_keyword t c (some ms)).lookup c = some ms) := by
  refine ⟨?_, ?_, ?_⟩
  · show (dictSet t c [c]).lookup c = some [c]
    exact dictSet_lookup t c [c]
  · intro h
    show (dictSet t c (if c ∈ ms then ms else c :: ms)).lookup c = some (c :: ms)
    rw [if_neg h]
    exact dictSet_lookup t c (c :: ms)
  · intro h
    show (dictSet t c (if c ∈ ms then ms else c :: ms)).lookup c = some ms
    rw [if_pos h]
    exact dictSet_lookup t c ms

/-- Witness for C8: registering a fresh keyword with no list stores
exactly the canonical spelling, and registering `def` with a list
lacking it stores the canonical spelling first. -/
theorem add_keyword_contract_witness :
    (add_keyword keyword_mappings "newkw" none).lookup "newkw" = some ["newkw"]
    ∧ (add_keyword keyword_mappings "def" (some ["wrong1", "wrong2"])).lookup "def" =
        some ["def", "wrong1", "wrong2"]
    ∧ (add_keyword keyword_mappings "if" (some ["if"])).lookup "if" = some ["if"] :=
  ⟨(add_keyword_contract keyword_mappings "newkw" []).1,
    (add_keyword_contract keyword_mappings "def" ["wrong1", "wrong2"]).2.1 (by decide),
    (add_keyword_contract keyword_mappings "if" ["if"]).2.2 (by decide)⟩

theorem updEntry_canon (c m : String) (q : String × List String) (h : q.1 ∈ q.2) :
    (updEntry c m q).1 ∈ (updEntry c m q).2 := by
  by_cases hb : (q.1 == c) = true
  · by_cases hm : m ∈ q.2
    · simp [updEntry, hb, hm]
      exact h
    · simp [updEntry, hb, hm]
      exact Or.inl h
  · simp [updEntry, hb]
    exact h

theorem updEntry_nodup (c m : String) (q : String × List String) (h : q.2.Nodup) :
    (updEntry c m q).2.Nodup := by
  by_cases hb : (q.1 == c) = true
  · by_cases hm : m ∈ q.2
    · simp [updEntry, hb, hm]
      exact h
    · simp only [updEntry, hb, hm, if_true, if_false]
      show (q.2 ++ [m]).Nodup
      exact List.nodup_append.mpr ⟨h, List.nodup_singleton m,
        List.disjoint_singleton.mpr hm⟩
  · simp [updEntry, hb]
    exact h

theorem add_misspelling_mem (t : Table) (c m : String) :
    ∀ p ∈ (add_misspelling t c m).1, ∃ q ∈ t, p = updEntry c m q ∨ p = q := by
  by_cases hl : (t.lookup c).isSome = true
  · simp only [add_misspelling, hl, if_true]
    intro p hp
    obtain ⟨q, hq, hqe⟩ := List.mem_map.mp hp
    exact ⟨q, hq, Or.inl hqe.symm⟩
  · have hl2 : (t.lookup c).isSome = false := Bool.not_eq_true _ ▸ hl
    simp only [add_misspelling, hl2, Bool.false_eq_true, if_false]
    intro p hp
    exact ⟨p, hp, Or.inr rfl⟩

theorem dictSet_mem (t : Table) (k : String) (v : List String) :
    ∀ p ∈ dictSet t k v, p = (k, v) ∨ p ∈ t := by
  by_cases hl : (t.lookup k).isSome = true
  · simp only [dictSet, hl, if_true]
    intro p hp
    obtain ⟨q, hq, hqe⟩ := List.mem_map.mp hp
    by_cases hb : (q.1 == k) = true
    · rw [if_pos hb] at hqe
      exact Or.inl hqe.symm
    · rw [if_neg hb] at hqe
      rw [← hqe]
      exact Or.inr hq
  · have hl2 : (t.lookup k).isSome = false := Bool.not_eq_true _ ▸ hl
    simp only [dictSet, hl2, Bool.false_eq_true, if_false]
    intro p hp
    rcases List.mem_append.mp hp with h | h
    · exact Or.inr h
    · exact Or.inl (List.mem_singleton.mp h)

theorem addKw_entry_canon (c : String) (ms : Option (List String)) :
    c ∈ (match ms with
      | none => [c]
      | some l => if c ∈ l then l else c :: l) := by
  cases ms with
  | none => exact List.mem_singleton.mpr rfl
  | some l =>
    show c ∈ (if c ∈ l then l else c :: l)
    by_cases h : c ∈ l
    · rw [if_pos h]
      exact h
    · rw [if_neg h]
      exact List.mem_cons_self c l

theorem addKw_entry_nodup (c : String) (ms : Option (List String))
    (hop : opOK (TableOp.addKw c ms)) :
    (match ms with
      | none => [c]
      | some l => if c ∈ l then l else c :: l).Nodup := by
  cases ms with
  | none => exact List.nodup_singleton c
  | some l =>
    show (if c ∈ l then l else c :: l).Nodup
    have hl : l.Nodup := hop
    by_cases h : c ∈ l
    · rw [if_pos h]
      exact hl
    · rw [if_neg h]
      exact List.nodup_cons.mpr ⟨h, hl⟩

theorem applyOp_canon (t : Table) (h : ∀ p ∈ t, p.1 ∈ p.2) (op : TableOp) :
    ∀ p ∈ applyOp t op, p.1 ∈ p.2 := by
  cases op with
  | addMiss c m =>
    intro p hp
    obtain ⟨q, hq, hcase⟩ := add_misspelling_mem t c m p hp
    rcases hcase with heq | heq
    · rw [heq]
      exact updEntry_canon c m q (h q hq)
    · rw [heq]
      exact h q hq
  | addKw c ms =>
    intro p hp
    rcases dictSet_mem t c _ p hp with heq | hmem
    · rw [heq]
      exact addKw_entry_canon c ms
    · exact h p hmem

theorem applyOp_inv (t : Table) (h : tableInv t) (op : TableOp) (hop : opOK op) :
    tableInv (applyOp t op) := by
  cases op with
  | addMiss c m =>
    intro p hp
    obtain ⟨q, hq, hcase⟩ := add_misspelling_mem t c m p hp
    rcases hcase with heq | heq
    · rw [heq]
      exact ⟨updEntry_canon c m q (h q hq).1, updEntry_nodup c m q (h q hq).2⟩
    · rw [heq]
      exact h q hq
  | addKw c ms =>
    intro p hp
    rcases dictSet_mem t c _ p hp with heq | hmem
    · rw [heq]
      exact ⟨addKw_entry_canon c ms, addKw_entry_nodup c ms hop⟩
    · exact h p hmem

theorem applyOps_canon :
    ∀ (ops : List TableOp) (t : Table), (∀ p ∈ t, p.1 ∈ p.2) →
      ∀ p ∈ applyOps t ops, p.1 ∈ p.2 := by
  intro ops
  induction ops with
  | nil => intro t h; exact h
  | cons op ops ih =>
    intro t h
    show ∀ p ∈ applyOps (applyOp t op) ops, p.1 ∈ p.2
    exact ih (applyOp t op) (applyOp_canon t h op)

theorem applyOps_inv :
    ∀ (ops : List TableOp) (t : Table), tableInv t → (∀ op ∈ ops, opOK op) →
      tableInv (applyOps t ops) := by
  intro ops
  induction ops with
  | nil => intro t h _; exact h
  | cons op ops ih =>
    intro t h hops
    show tableInv (applyOps (applyOp t op) ops)
    exact ih (applyOp t op) (applyOp_inv t h op (hops op (List.mem_cons_self _ _)))
      fun o ho => hops o (List.mem_cons_of_mem _ ho)

theorem seed_tableInv : tableInv keyword_mappings := by decide

/-- Counterexample to C9 as stated: from the seed table,
`add_keyword("x", ["a", "a"])` stores the entry `["x", "a", "a"]`,
which lists the alternate `a` twice, so the no-duplicates half of the
invariant fails for arbitrary argument lists. -/
theorem table_invariant_counterexample :
    ¬ tableInv (applyOps keyword_mappings [TableOp.addKw "x" (some ["a", "a"])]) := by decide

/-- C9 amended: for every table state reachable from the seed table,
every entry contains at least its canonical spelling; and when every
`add_keyword` call supplies a duplicate-free alternates list, no entry
lists the same alternate twice either. -/
theorem table_invariant_amended (ops : List TableOp) :
    (∀ p ∈ applyOps keyword_mappings ops, p.1 ∈ p.2)
    ∧ ((∀ op ∈ ops, opOK op) → tableInv (applyOps keyword_mappings ops)) :=
  ⟨applyOps_canon ops keyword_mappings (fun p hp => (seed_tableInv p hp).1),
    fun hops => applyOps_inv ops keyword_mappings seed_tableInv hops⟩

/-- Witness for the amended C9 on a concrete mutation sequence with a
duplicate-free alternates list. -/
theorem table_invariant_amended_witness :
    (∀ p ∈ applyOps keyword_mappings
        [TableOp.addMiss "def" "newdef", TableOp.addKw "x" (some ["a", "b"])], p.1 ∈ p.2)
    ∧ tableInv (applyOps keyword_mappings
        [TableOp.addMiss "def" "newdef", TableOp.addKw "x" (some ["a", "b"])]) :=
  ⟨(table_invariant_amended [TableOp.addMiss "def" "newdef",
      TableOp.addKw "x" (some ["a", "b"])]).1,
    (table_invariant_amended [TableOp.addMiss "def" "newdef",
      TableOp.addKw "x" (some ["a", "b"])]).2 (by decide)⟩

/-!
Claim theorems for the spec-modelled fuzzy matcher and option
corrector.
-/

/-- C2: `find_fuzzy_match("printt")` is `print`; `"de"` is too
dissimilar for the short-token threshold; `"deffffffffffffff"` is
rejected for excessive length; and with fuzzy matching disabled every
word yields no match. -/
theorem find_fuzzy_match_thresholds :
    find_fuzzy_match true keyword_mappings "printt" = some "print"
    ∧ find_fuzzy_match true keyword_mappings "de" = none
    ∧ find_fuzzy_match true keyword_mappings "deffffffffffffff" = none
    ∧ ∀ w : String, find_fuzzy_match false keyword_mappings w = none := by
  refine ⟨by decide, by decide, by decide, fun w => rfl⟩

theorem optStep_fst (acc : List String × List (String × String)) (arg : String) :
    (optStep acc arg).1 = acc.1 ++ [correctArg arg] := by
  show (if correctArg arg = arg then (acc.1 ++ [arg], acc.2)
    else (acc.1 ++ [correctArg arg], acc.2 ++ [(arg, correctArg arg)])).1 =
      acc.1 ++ [correctArg arg]
  by_cases h : correctArg arg = arg
  · rw [if_pos h, h]
  · rw [if_neg h]

theorem correct_options_fst :
    ∀ (args : List String) (acc : List String × List (String × String)),
      (args.foldl optStep acc).1 = acc.1 ++ args.map correctArg := by
  intro args
  induction args with
  | nil => intro acc; simp
  | cons a as ih =>
    intro acc
    show (as.foldl optStep (optStep acc a)).1 = _
    rw [ih (optStep acc a), optStep_fst]
    simp

/-- C3: `correct_options(["--halp"])` yields `["--help"]` recording
the pair `("--halp", "--help")`; short options and positionals pass
through; unrecognized long options pass through; and on every input
the corrector maps each argument in place, so it never adds, drops, or
reorders arguments. -/
theorem correct_options_behavior :
    correct_options ["--halp"] = (["--help"], [("--halp", "--help")])
    ∧ correct_options ["-i", "test.py"] = (["-i", "test.py"], [])
    ∧ correct_options ["--unknown"] = (["--unknown"], [])
    ∧ ∀ args : List String, (correct_options args).1 = args.map correctArg
        ∧ ((correct_options args).1).length = args.length := by
  refine ⟨by decide, by decide, by decide, fun args => ?_⟩
  have h : (correct_options args).1 = args.map correctArg := by
    have h2 := correct_options_fst args ([], [])
    simpa using h2
  exact ⟨h, by rw [h]; exact List.length_map args correctArg⟩
